import Mathlib

/-!
Verification development for the numstat parsing and path-tree aggregation
engine of git-dirheat (`main.go`).

Strings are modelled as `List Char`; Go's byte indices coincide with character
indices on the ASCII inputs this program consumes.  Machine integers never
come near overflow here (counts are bounded by the number of input lines), so
they are modelled as `Nat`.
-/

set_option autoImplicit false

/-- The characters Go's `unicode.IsSpace` recognises in the Latin-1 range
(the inputs of interest are ASCII).  `strings.Fields`, `strings.TrimSpace`
split and trim on these. -/
def goIsSpace (c : Char) : Bool :=
  c = '\t' || c = '\n' || c = '\x0b' || c = '\x0c' || c = '\r' || c = ' ' ||
  c = '\x85' || c = '\xA0'

/-- Helper for `fields`: `acc` holds the current field, reversed. -/
def fieldsAux : List Char → List Char → List (List Char)
  | [], acc => if acc.isEmpty then [] else [acc.reverse]
  | c :: cs, acc =>
    if goIsSpace c then
      if acc.isEmpty then fieldsAux cs [] else acc.reverse :: fieldsAux cs []
    else fieldsAux cs (c :: acc)

/-- `strings.Fields`: split around each run of white space. -/
def fields (cs : List Char) : List (List Char) := fieldsAux cs []

/-- `strings.Index pat` as an `Option`: the first position at which `pat`
occurs in the list, `none` when it does not occur. -/
def indexOfSub (pat : List Char) : List Char → Option Nat
  | [] => if pat.isEmpty then some 0 else none
  | c :: cs =>
    if pat.isPrefixOf (c :: cs) then some 0
    else (indexOfSub pat cs).map (· + 1)

/-- `strings.Index` proper: `-1` when the pattern does not occur. -/
def goIndex (pat cs : List Char) : Int :=
  match indexOfSub pat cs with
  | none => -1
  | some n => (n : Int)

def arrowPat : List Char := ['=', '>']

def leftCurlyPat : List Char := ['\x7b']

def rightCurlyPat : List Char := ['\x7d']

/-- `strings.TrimSpace`. -/
def trimSpace (cs : List Char) : List Char :=
  ((cs.dropWhile goIsSpace).reverse.dropWhile goIsSpace).reverse

/-- `strings.Split cs pat` returns exactly two parts iff `pat` occurs exactly
once (left-to-right, non-overlapping); in that case this returns the two
parts, otherwise `none`.  The source only uses the split when it has exactly
two parts (`len(insideParts) == 2`). -/
def splitOn2 (pat cs : List Char) : Option (List Char × List Char) :=
  match indexOfSub pat cs with
  | none => none
  | some i =>
    let r := cs.drop (i + pat.length)
    if (indexOfSub pat r).isSome then none else some (cs.take i, r)

/-- `strings.TrimPrefix right " "`. -/
def trimOneLeadingSpace : List Char → List Char
  | ' ' :: cs => cs
  | cs => cs

/-- `strings.TrimSuffix right "\x7d"`. -/
def trimOneTrailingCurly (cs : List Char) : List Char :=
  if cs.getLast? = some '\x7d' then cs.dropLast else cs

/-- `filepath.Separator` on the platforms the tool targets via `ToSlash`;
on unix it is `/`, making `filepath.ToSlash` the identity. -/
def pathSeparator : Char := '/'

/-- `filepath.ToSlash`: replace every `filepath.Separator` by `/`. -/
def filepathToSlash (cs : List Char) : List Char :=
  cs.map (fun c => if c = pathSeparator then '/' else c)

/-- `strings.TrimLeft normalizedPath "\x7b "`. -/
def trimLeftCurlySpace (cs : List Char) : List Char :=
  cs.dropWhile (fun c => c = '\x7b' || c = ' ')

/-- The rename-destination extraction of `analyzeRepo` (the body of the
`strings.Contains(line, "=>")` branch): returns the extracted `filePath`,
`[]` when the branch leaves `filePath` empty (unparseable rename). -/
def renameDest (line : List Char) : List Char :=
  let lc := goIndex leftCurlyPat line
  let rc := goIndex rightCurlyPat line
  let ar := goIndex arrowPat line
  if 0 ≤ lc ∧ lc < rc ∧ lc < ar ∧ ar < rc then
    -- e.g. src/\x7bfoo.go => bar.go\x7d
    let pfx := line.take lc.toNat
    let inside := (line.take rc.toNat).drop (lc.toNat + 1)
    match splitOn2 arrowPat inside with
    | some pr => trimSpace (pfx ++ pr.2)
    | none => []
  else if lc = 0 ∧ 0 < ar then
    -- e.g. \x7bold/path/foo.go => new/path/bar.go\x7d
    let inside := line.drop 1
    match indexOfSub arrowPat inside with
    | some ar2 =>
      if 0 < ar2 then
        trimSpace (trimOneTrailingCurly (trimOneLeadingSpace (inside.drop (ar2 + 2))))
      else []
    | none => []
  else []

/-- `changeAmount`: the weight attributed to an accepted line.  The source
distinguishes binary-file markers `-` only to assign the same constant. -/
def changeAmount (addedStr deletedStr : List Char) : Nat :=
  if addedStr = ['-'] || deletedStr = ['-'] then 1 else 1

/-- The field extraction of the scan loop: `some (addedStr, deletedStr,
filePath)` when the line passes the shape checks, `none` when it is skipped
(malformed or unparseable rename). -/
def rawRecord (line : List Char) : Option (List Char × List Char × List Char) :=
  let parts := fields line
  if parts.length < 3 then
    if (indexOfSub arrowPat line).isSome then
      let fp := renameDest line
      if fp.isEmpty then none
      else
        match parts with
        | a :: d :: _ => some (a, d, fp)
        | _ => none
    else none
  else
    match parts with
    | a :: d :: f :: _ => some (a, d, f)
    | _ => none

/-- `filepath.ToSlash(strings.TrimSpace(filePath))` then
`strings.TrimLeft(·, "\x7b ")`. -/
def normalizePath (fp : List Char) : List Char :=
  trimLeftCurlySpace (filepathToSlash (trimSpace fp))

/-- One iteration of the scan loop of `analyzeRepo` up to the map update:
`some (normalizedPath, changeAmount)` when the line is accepted, `none` when
it is skipped.  The `line = []` guard is the loop's empty-line skip. -/
def parseLine (line : List Char) : Option (List Char × Nat) :=
  if line.isEmpty then none
  else
    match rawRecord line with
    | none => none
    | some (a, d, fp) =>
      let np := normalizePath fp
      if np.isEmpty then none else some (np, changeAmount a d)

/-- Folding one line into `fileChangeCounts` (the WeightMap), modelled as a
total function from normalized paths to accumulated weights. -/
def stepCounts (m : List Char → Nat) (line : List Char) : List Char → Nat :=
  match parseLine line with
  | some pw => fun x => if x = pw.1 then m x + pw.2 else m x
  | none => m

/-- The WeightMap produced by the scan loop over a list of lines. -/
def countsOf (lines : List (List Char)) : List Char → Nat :=
  lines.foldl stepCounts (fun _ => 0)

/-- The set of keys of the WeightMap, in first-acceptance order. -/
def acceptedPaths (lines : List (List Char)) : List (List Char) :=
  lines.foldl
    (fun acc l =>
      match parseLine l with
      | some pw => if pw.1 ∈ acc then acc else acc ++ [pw.1]
      | none => acc)
    []

/-- Whether a line is accepted with normalized path `p`. -/
def acceptsPath (l p : List Char) : Bool :=
  match parseLine l with
  | some pw => pw.1 == p
  | none => false

/-! ## The tree of directory and file nodes -/

mutual
/-- `Node` from the source: a directory or file in the repository structure. -/
inductive Node : Type where
  | mk (name : List Char) (path : List Char) (value : Nat) (isFile : Bool)
      (children : Forest)

/-- The children collection.  In the source this is `map[string]*Node` keyed
by the child's `Name`; it is modelled as a finite sequence of nodes whose
names are the keys (lookups compare names). -/
inductive Forest : Type where
  | nil : Forest
  | cons : Node → Forest → Forest
end

deriving instance DecidableEq for Node

def Node.name : Node → List Char
  | .mk nm _ _ _ _ => nm

def Node.path : Node → List Char
  | .mk _ p _ _ _ => p

def Node.value : Node → Nat
  | .mk _ _ v _ _ => v

def Node.isFile : Node → Bool
  | .mk _ _ _ f _ => f

def Node.children : Node → Forest
  | .mk _ _ _ _ cs => cs

def Forest.isEmpty : Forest → Bool
  | .nil => true
  | .cons _ _ => false

def Forest.toList : Forest → List Node
  | .nil => []
  | .cons c cs => c :: cs.toList

/-- Map lookup `current.Children[part]`. -/
def findChild : Forest → List Char → Option Node
  | .nil, _ => none
  | .cons c cs, k => if c.name = k then some c else findChild cs k

/-- Replacing the (unique) child keyed `k`; models in-place mutation of the
node the map lookup returned. -/
def replaceChild : Forest → List Char → Node → Forest
  | .nil, _, _ => .nil
  | .cons c cs, k, c2 =>
    if c.name = k then .cons c2 cs else .cons c (replaceChild cs k c2)

/-- Map insertion `current.Children[part] = child` for an absent key. -/
def Forest.push : Forest → Node → Forest
  | .nil, c => .cons c .nil
  | .cons d ds, c => .cons d (ds.push c)

/-- `filepath.Join(currentPath, part)` for the arguments arising here.
(`filepath.Join` also cleans the result; the `Path` field plays no role in
any property below.) -/
def pathJoin (base part : List Char) : List Char :=
  if base = ['/'] then '/' :: part else base ++ '/' :: part

/-- `NewNode`. -/
def NewNode (name path : List Char) (isFile : Bool) : Node :=
  .mk name path 0 isFile .nil

/-- `n.ensurePath(pathParts)` followed by `fileNode.Value = count`:
walks/creates nodes for the path parts (empty parts skipped; a node is
created as a file exactly when it is the last part), marks the parent as a
non-file whenever a new child is attached to it, and sets the value of the
final node reached. -/
def insertPath : Node → List (List Char) → Nat → Node
  | .mk nm p _ f cs, [], count => .mk nm p count f cs
  | n, part :: rest, count =>
    if part.isEmpty then insertPath n rest count
    else
      match findChild n.children part with
      | some c =>
        .mk n.name n.path n.value n.isFile
          (replaceChild n.children part (insertPath c rest count))
      | none =>
        let child := NewNode part (pathJoin n.path part) rest.isEmpty
        .mk n.name n.path n.value false (n.children.push (insertPath child rest count))

/-- Helper for `splitOnChar`: `acc` holds the current piece, reversed. -/
def splitOnCharAux (sep : Char) : List Char → List Char → List (List Char)
  | [], acc => [acc.reverse]
  | c :: cs, acc =>
    if c = sep then acc.reverse :: splitOnCharAux sep cs []
    else splitOnCharAux sep cs (c :: acc)

/-- `strings.Split cs sep` for a single-character separator (always at least
one piece; empty pieces kept). -/
def splitOnChar (sep : Char) (cs : List Char) : List (List Char) :=
  splitOnCharAux sep cs []

def inTrimCutset (c : Char) : Bool :=
  c = ' ' || c = '\x7b' || c = '\x7d'

/-- `strings.Trim part " \x7b\x7d"`: the per-segment sanitization of the
tree-building loop. -/
def sanitizeSegment (cs : List Char) : List Char :=
  ((cs.dropWhile inTrimCutset).reverse.dropWhile inTrimCutset).reverse

/-- `strings.Split(filePath, "/")` followed by sanitizing each segment. -/
def entryParts (p : List Char) : List (List Char) :=
  (splitOnChar '/' p).map sanitizeSegment

/-- One iteration of the tree-building loop over the WeightMap: zero-count
entries are skipped. -/
def buildStep (t : Node) (e : List Char × Nat) : Node :=
  if e.2 = 0 then t else insertPath t (entryParts e.1) e.2

/-- The fresh root (`NewNode(rootDirName, "/", false)`). -/
def rootNode (rootName : List Char) : Node :=
  NewNode rootName ['/'] false

/-- The tree-building loop of `analyzeRepo` over the WeightMap entries
(given as a list: the Go map iteration order is arbitrary, so properties are
stated over every entry list). -/
def buildTree (rootName : List Char) (entries : List (List Char × Nat)) : Node :=
  entries.foldl buildStep (rootNode rootName)

/-! ## Aggregation -/

def valuesSum : Forest → Nat
  | .nil => 0
  | .cons c cs => c.value + valuesSum cs

mutual
/-- `aggregateCounts`: recursively recompute each directory's value as the
sum of its children's aggregated values; file nodes keep their own value. -/
def Node.aggregateCounts : Node → Node
  | .mk nm p v f cs =>
    if f then .mk nm p v f cs
    else
      let cs2 := aggForest cs
      .mk nm p (valuesSum cs2) f cs2

def aggForest : Forest → Forest
  | .nil => .nil
  | .cons c cs => .cons c.aggregateCounts (aggForest cs)
end

mutual
/-- The value `aggregateCounts` returns for a node (its value for a file,
the recursive sum for a directory). -/
def aggSum : Node → Nat
  | .mk _ _ v f cs => if f then v else aggSumF cs

def aggSumF : Forest → Nat
  | .nil => 0
  | .cons c cs => aggSum c + aggSumF cs
end

mutual
/-- Modelled from the spec: the sum of the values of all leaf file nodes
reachable from a node — a file node with no children contributes its value,
any other node the sum over its children. -/
def fileLeafSum : Node → Nat
  | .mk _ _ v f cs => if f && cs.isEmpty then v else fileLeafSumF cs

def fileLeafSumF : Forest → Nat
  | .nil => 0
  | .cons c cs => fileLeafSum c + fileLeafSumF cs
end

mutual
/-- The structural invariant of §3 of the spec: a node that has children is
a directory, everywhere in the tree. -/
def nodeWF : Node → Bool
  | .mk _ _ _ f cs => (cs.isEmpty || !f) && forestWF cs

def forestWF : Forest → Bool
  | .nil => true
  | .cons c cs => nodeWF c && forestWF cs
end

/-- Walking the tree along a list of child names. -/
def nodeAt : Node → List (List Char) → Option Node
  | n, [] => some n
  | n, s :: P =>
    match findChild n.children s with
    | some c => nodeAt c P
    | none => none

/-- The value `aggregateCounts` credits to the node sitting at location `P`
in isolation: its value when it is a file there, `0` otherwise. -/
def fileValueAt (t : Node) (P : List (List Char)) : Nat :=
  match nodeAt t P with
  | some n => if n.isFile then n.value else 0
  | none => 0

/-- Whether the node at location `P` exists and has at least one child. -/
def hasChildAt (t : Node) (P : List (List Char)) : Bool :=
  match nodeAt t P with
  | some n => !n.children.isEmpty
  | none => false

/-- The nonempty sanitized segments of a parts list: the child names the
tree-building walk actually traverses. -/
def cleanParts (parts : List (List Char)) : List (List Char) :=
  parts.filter (fun s => !s.isEmpty)

def weightsSum : List (List Char × Nat) → Nat
  | [] => 0
  | e :: es => e.2 + weightsSum es

/-- Per-entry contribution bound used for the conservation-loss argument:
an entry whose walk ends exactly at location `P` contributes nothing
counted at `P`. -/
def condSum (P : List (List Char)) : List (List Char × Nat) → Nat
  | [] => 0
  | e :: es =>
    (if e.2 = 0 then 0
     else if cleanParts (entryParts e.1) = P then 0 else e.2) + condSum P es

/-- `q` lies strictly below the path `p`: `q = p ++ "/" ++ r` where `r`
still contains at least one nonempty sanitized segment. -/
def pathProperlyExtends (q p : List Char) : Prop :=
  ∃ r, q = p ++ '/' :: r ∧ cleanParts (entryParts r) ≠ []

/-! ## Export -/

/-- `JSONNode`: the D3-compatible output structure. -/
inductive JSONNode : Type where
  | mk (name : List Char) (value : Nat) (children : List JSONNode)

def JSONNode.name : JSONNode → List Char
  | .mk nm _ _ => nm

def JSONNode.value : JSONNode → Nat
  | .mk _ v _ => v

def JSONNode.children : JSONNode → List JSONNode
  | .mk _ _ cs => cs

/-- `encoding/json` omits a slice field tagged `omitempty` exactly when the
slice has length zero, so the exported `children` field is absent from the
serialized object iff this list is empty. -/
def omitsChildrenField (j : JSONNode) : Bool :=
  j.children.isEmpty

def insertByValueDesc (x : JSONNode) : List JSONNode → List JSONNode
  | [] => [x]
  | y :: ys => if y.value < x.value then x :: y :: ys else y :: insertByValueDesc x ys

/-- Sorting by value, descending — the comparator of the source's
`sort.Slice` call (`Children[i].Value > Children[j].Value`). -/
def sortByValueDesc : List JSONNode → List JSONNode
  | [] => []
  | x :: xs => insertByValueDesc x (sortByValueDesc xs)

mutual
/-- `ToJSONNode`, parameterized by `g`, the order in which the Go map
iteration enumerates each node's children before the (unstable) sort: any
permutation can occur, so properties quantify over permutation functions. -/
def toJSONNodeWith (g : List JSONNode → List JSONNode) : Node → JSONNode
  | .mk nm _ v _ cs =>
    if cs.isEmpty then .mk nm v []
    else .mk nm v (sortByValueDesc (g (exportChildren g cs)))

/-- The collection loop of `ToJSONNode`: export exactly the children whose
aggregated value is positive. -/
def exportChildren (g : List JSONNode → List JSONNode) : Forest → List JSONNode
  | .nil => []
  | .cons c cs =>
    if 0 < c.value then toJSONNodeWith g c :: exportChildren g cs
    else exportChildren g cs
end

/-- `ToJSONNode` with children kept in stored order before sorting. -/
def Node.toJSONNode (n : Node) : JSONNode := toJSONNodeWith id n

/-- `g` reorders every list (the envelope of map-iteration randomization). -/
def permFun (g : List JSONNode → List JSONNode) : Prop :=
  ∀ l, List.Perm (g l) l

/-- Claim C7 as stated: the exported tree does not depend on the iteration
order of the children maps. -/
def exportDeterministic : Prop :=
  ∀ (n : Node) (g1 g2 : List JSONNode → List JSONNode),
    permFun g1 → permFun g2 → toJSONNodeWith g1 n = toJSONNodeWith g2 n

/-- Children lists sorted by value, descending. -/
def sortedByValueDesc : List JSONNode → Bool
  | [] => true
  | [_] => true
  | x :: y :: ys => decide (y.value ≤ x.value) && sortedByValueDesc (y :: ys)

/-! ## The whole data-processing pipeline of `analyzeRepo` -/

/-- `bufio.Scanner` with `ScanLines`: split on `'\n'`, drop a final empty
token (no trailing line after a terminating newline; empty input yields no
lines), strip one trailing `'\r'` per line. -/
def dropTrailingCR (cs : List Char) : List Char :=
  if cs.getLast? = some '\r' then cs.dropLast else cs

def splitLines (cs : List Char) : List (List Char) :=
  let ts := splitOnChar '\n' cs
  (if ts.getLast? = some [] then ts.dropLast else ts).map dropTrailingCR

/-- The WeightMap as an entry list (keys in first-acceptance order — the Go
map iteration order is arbitrary; tree-level properties quantify over every
entry list). -/
def entriesOfLines (lines : List (List Char)) : List (List Char × Nat) :=
  (acceptedPaths lines).map (fun p => (p, countsOf lines p))

/-- The data-processing part of `analyzeRepo`: scan the raw git output into
the WeightMap, build the tree, aggregate.  The git invocation and the root
directory name determination are outside the modelled core; the root name is
a parameter. -/
def analyzeNumstat (rootName : List Char) (output : List Char) : Node :=
  (buildTree rootName (entriesOfLines (splitLines output))).aggregateCounts

mutual
/-- Local conservation over a (sub)tree: every directory node's value equals
the sum of its immediate children's values (`0` when it has none),
recursively. -/
def aggOK : Node → Prop
  | .mk _ _ v f cs => (f = false → v = valuesSum cs) ∧ forestAggOK cs

def forestAggOK : Forest → Prop
  | .nil => True
  | .cons c cs => aggOK c ∧ forestAggOK cs
end

/-- An aggregated tree with two equal-valued children (as produced, e.g.,
from the WeightMap `a ↦ 1, b ↦ 1`): the smallest input on which the export
order depends on the map iteration order. -/
def sampleTiedNode : Node :=
  .mk ['r'] ['/'] 2 false
    (.cons (.mk ['a'] ['/', 'a'] 1 true .nil)
      (.cons (.mk ['b'] ['/', 'b'] 1 true .nil) .nil))

/-! ## Theorems: the line parser (C1–C4) -/

theorem changeAmount_eq_one (a d : List Char) : changeAmount a d = 1 := by
  unfold changeAmount
  exact ite_self 1

theorem parseLine_weight (l : List Char) (pw : List Char × Nat)
    (h : parseLine l = some pw) : pw.2 = 1 := by
  unfold parseLine at h
  split at h
  · exact absurd h (by simp)
  · cases hraw : rawRecord l with
    | none => rw [hraw] at h; exact absurd h (by simp)
    | some adf =>
      obtain ⟨a, d, fp⟩ := adf
      rw [hraw] at h
      simp only at h
      split at h
      · exact absurd h (by simp)
      · cases h
        exact changeAmount_eq_one a d

theorem stepCounts_foldl_eq (lines : List (List Char)) :
    ∀ (m : List Char → Nat) (p : List Char),
      lines.foldl stepCounts m p
        = m p + (lines.filter (fun l => acceptsPath l p)).length := by
  induction lines with
  | nil => intro m p; simp
  | cons l ls ih =>
    intro m p
    rw [List.foldl_cons, ih, List.filter_cons]
    cases hp : parseLine l with
    | none => simp [stepCounts, acceptsPath, hp]
    | some pw =>
      have hw : pw.2 = 1 := parseLine_weight l pw hp
      by_cases hppw : pw.1 = p
      · subst hppw
        have ha : acceptsPath l pw.1 = true := by simp [acceptsPath, hp]
        simp only [stepCounts, hp, ha, if_true, if_pos rfl, hw, List.length_cons]
        omega
      · have ha : acceptsPath l p = false := by simp [acceptsPath, hp, hppw]
        have hcond : ¬(p = pw.1) := fun hh => hppw hh.symm
        simp [stepCounts, hp, ha, hcond]

set_option maxRecDepth 10000

/-- C1: every accepted numstat line is attributed weight exactly 1
(regardless of the added/deleted counts, including `-` markers), the
accumulated weight of a path is the number of accepted lines carrying it,
and the normal line `"3\t1\tsrc/app.go"` yields the WeightMap entry
`src/app.go ↦ 1`. -/
theorem c1_weight_is_one_per_accepted_line :
    (∀ (l : List Char) (pw : List Char × Nat), parseLine l = some pw → pw.2 = 1) ∧
    (∀ (lines : List (List Char)) (p : List Char),
      countsOf lines p = (lines.filter (fun l => acceptsPath l p)).length) ∧
    countsOf ["3\t1\tsrc/app.go".toList] "src/app.go".toList = 1 := by
  refine ⟨parseLine_weight, ?_, by decide⟩
  intro lines p
  unfold countsOf
  rw [stepCounts_foldl_eq]
  simp

/-- C1 witness: the theorem instantiated on the line `"3\t1\tsrc/app.go"`. -/
theorem c1_witness : (("src/app.go".toList, 1) : List Char × Nat).2 = 1 :=
  c1_weight_is_one_per_accepted_line.1 "3\t1\tsrc/app.go".toList
    ("src/app.go".toList, 1) (by decide)

/-- C2: evaluating the code on `"0\t0\tsrc/\x7bold.go => new.go\x7d"`:
`strings.Fields` splits the line into five fields, so the normal branch
(`len(parts) ≥ 3`) takes `parts[2] = "src/\x7bold.go"` and the rename branch
guarded by `len(parts) < 3` is unreachable; the recorded WeightMap entry is
`src/\x7bold.go ↦ 1`, not `src/new.go ↦ 1` as the claim states. -/
theorem c2_partial_rename_line_actual :
    parseLine "0\t0\tsrc/\x7bold.go => new.go\x7d".toList
      = some ("src/\x7bold.go".toList, 1) ∧
    (fields "0\t0\tsrc/\x7bold.go => new.go\x7d".toList).length = 5 ∧
    countsOf ["0\t0\tsrc/\x7bold.go => new.go\x7d".toList] "src/new.go".toList = 0 := by
  refine ⟨by decide, by decide, by decide⟩

/-- C3: evaluating the code on `"1\t0\t\x7bold/path.go => new/path.go\x7d"`:
the line has five whitespace-separated fields, so the normal branch takes
`parts[2] = "\x7bold/path.go"`, whose normalization strips the leading brace;
the recorded WeightMap entry is `old/path.go ↦ 1` (the rename source), not
`new/path.go ↦ 1` (the destination) as the claim states. -/
theorem c3_whole_rename_line_actual :
    parseLine "1\t0\t\x7bold/path.go => new/path.go\x7d".toList
      = some ("old/path.go".toList, 1) ∧
    (fields "1\t0\t\x7bold/path.go => new/path.go\x7d".toList).length = 5 ∧
    countsOf ["1\t0\t\x7bold/path.go => new/path.go\x7d".toList] "new/path.go".toList = 0 := by
  refine ⟨by decide, by decide, by decide⟩

/-- C4 counterexample: `"garbage text no tabs"` splits into four
whitespace-separated fields, so the parser accepts it as a normal record
with path `"no"` — it does contribute to the WeightMap. -/
theorem c4_counterexample :
    parseLine "garbage text no tabs".toList = some ("no".toList, 1) ∧
    countsOf ["garbage text no tabs".toList] "no".toList = 1 := by
  refine ⟨by decide, by decide⟩

/-- C4 (amended): a malformed line with fewer than three whitespace-separated
fields and no `=>` marker contributes nothing to the WeightMap (it is skipped,
not fatal); lines with three or more fields — like `"garbage text no tabs"` —
are accepted as normal records. -/
theorem c4_short_line_without_arrow_contributes_nothing :
    ∀ (m : List Char → Nat) (l : List Char),
      (fields l).length < 3 → indexOfSub arrowPat l = none →
      stepCounts m l = m := by
  intro m l h3 harrow
  have hraw : rawRecord l = none := by
    unfold rawRecord
    simp only [if_pos h3, harrow]
    simp
  have hp : parseLine l = none := by
    unfold parseLine
    split
    · rfl
    · rw [hraw]
  simp [stepCounts, hp]

/-- C4 witness: a genuinely short malformed line is dropped. -/
theorem c4_witness : stepCounts (fun _ => 0) "garbage".toList = (fun _ => 0) :=
  c4_short_line_without_arrow_contributes_nothing (fun _ => 0) "garbage".toList
    (by decide) (by decide)

/-! ## Theorems: tree building and the file/directory invariant (C9) -/

theorem Forest.isEmpty_eq_true_iff (cs : Forest) : cs.isEmpty = true ↔ cs = .nil := by
  cases cs <;> simp [Forest.isEmpty]

theorem findChild_forest_ne_nil {cs : Forest} {k : List Char} {c : Node}
    (h : findChild cs k = some c) : cs.isEmpty = false := by
  cases cs with
  | nil => simp [findChild] at h
  | cons d ds => rfl

theorem forestWF_findChild : ∀ (cs : Forest) (k : List Char) (c : Node),
    forestWF cs = true → findChild cs k = some c → nodeWF c = true
  | .nil, _, _ => by intro _ h; simp [findChild] at h
  | .cons d ds, k, c => by
    intro hwf h
    simp only [forestWF, Bool.and_eq_true] at hwf
    simp only [findChild] at h
    split at h
    · cases h; exact hwf.1
    · exact forestWF_findChild ds k c hwf.2 h

theorem forestWF_replaceChild : ∀ (cs : Forest) (k : List Char) (c2 : Node),
    forestWF cs = true → nodeWF c2 = true →
    forestWF (replaceChild cs k c2) = true
  | .nil, _, _ => by intro hwf _; simpa [replaceChild] using hwf
  | .cons d ds, k, c2 => by
    intro hwf hc2
    simp only [forestWF, Bool.and_eq_true] at hwf
    simp only [replaceChild]
    split
    · simp [forestWF, hc2, hwf.2]
    · simp [forestWF, hwf.1, forestWF_replaceChild ds k c2 hwf.2 hc2]

theorem forestWF_push : ∀ (cs : Forest) (c : Node),
    forestWF cs = true → nodeWF c = true → forestWF (cs.push c) = true
  | .nil, c => by intro _ hc; simp [Forest.push, forestWF, hc]
  | .cons d ds, c => by
    intro hwf hc
    simp only [forestWF, Bool.and_eq_true] at hwf
    simp [Forest.push, forestWF, hwf.1, forestWF_push ds c hwf.2 hc]

theorem nodeWF_NewNode (name path : List Char) (isFile : Bool) :
    nodeWF (NewNode name path isFile) = true := by
  simp [NewNode, nodeWF, forestWF, Forest.isEmpty]

theorem insertPath_wf :
    ∀ (parts : List (List Char)) (n : Node) (w : Nat),
      nodeWF n = true → nodeWF (insertPath n parts w) = true := by
  intro parts
  induction parts with
  | nil =>
    intro n w hwf
    cases n with
    | mk nm p v f cs => simpa [insertPath, nodeWF] using hwf
  | cons part rest ih =>
    intro n w hwf
    cases n with
    | mk nm p v f cs =>
      simp only [insertPath]
      split
      · exact ih _ w hwf
      · simp only [nodeWF, Bool.and_eq_true] at hwf
        cases hfc : findChild (Node.mk nm p v f cs).children part with
        | some c =>
          simp only [hfc]
          have hcne : cs.isEmpty = false := findChild_forest_ne_nil hfc
          have hf : (!f) = true := by
            rcases Bool.or_eq_true_iff.mp hwf.1 with h | h
            · rw [Node.children] at hfc
              rw [findChild_forest_ne_nil hfc] at h; cases h
            · exact h
          have hrep : forestWF (replaceChild cs part (insertPath c rest w)) = true :=
            forestWF_replaceChild cs part (insertPath c rest w) hwf.2
              (ih c w (forestWF_findChild cs part c hwf.2 hfc))
          simp [nodeWF, Node.children, Node.name, Node.path, Node.value, Node.isFile,
            hrep, hf]
        | none =>
          simp only [hfc]
          have hnew : nodeWF (insertPath (NewNode part (pathJoin (Node.mk nm p v f cs).path part) rest.isEmpty) rest w) = true :=
            ih _ w (nodeWF_NewNode _ _ _)
          have hpush : forestWF (cs.push (insertPath (NewNode part (pathJoin (Node.mk nm p v f cs).path part) rest.isEmpty) rest w)) = true :=
            forestWF_push cs _ hwf.2 hnew
          simp [nodeWF, Node.children, hpush]

theorem foldl_buildStep_wf :
    ∀ (entries : List (List Char × Nat)) (t : Node),
      nodeWF t = true → nodeWF (entries.foldl buildStep t) = true := by
  intro entries
  induction entries with
  | nil => intro t h; simpa
  | cons e es ih =>
    intro t h
    rw [List.foldl_cons]
    refine ih _ ?_
    unfold buildStep
    split
    · exact h
    · exact insertPath_wf _ t e.2 h

theorem buildTree_wf (rootName : List Char) (entries : List (List Char × Nat)) :
    nodeWF (buildTree rootName entries) = true :=
  foldl_buildStep_wf entries (rootNode rootName) (nodeWF_NewNode _ _ _)

/-- C9: throughout tree construction no node simultaneously has children and
is marked as a file: inserting any path into a tree satisfying the invariant
preserves it (a child attached to a former file node reclassifies it as a
directory), and every built tree satisfies it — every node with a nonempty
children map has `IsFile = false`. -/
theorem c9_no_node_is_file_with_children :
    (∀ (t : Node) (parts : List (List Char)) (w : Nat),
      nodeWF t = true → nodeWF (insertPath t parts w) = true) ∧
    (∀ (rootName : List Char) (entries : List (List Char × Nat)),
      nodeWF (buildTree rootName entries) = true) :=
  ⟨fun t parts w h => insertPath_wf parts t w h, buildTree_wf⟩

/-- C9 witness: inserting `a/b` then `a` into a fresh root keeps the
invariant. -/
theorem c9_witness :
    nodeWF (insertPath (buildTree "r".toList [("a/b".toList, 1)]) ["a".toList] 2) = true :=
  c9_no_node_is_file_with_children.1 (buildTree "r".toList [("a/b".toList, 1)])
    ["a".toList] 2 (by decide)

/-! ## Theorems: aggregation (C5) and empty input (C8) -/

mutual
theorem aggregateCounts_value : ∀ (n : Node), n.aggregateCounts.value = aggSum n
  | .mk nm p v f cs => by
    cases f with
    | true => simp [Node.aggregateCounts, aggSum, Node.value]
    | false =>
      simp [Node.aggregateCounts, aggSum, Node.value, aggForest_valuesSum cs]

theorem aggForest_valuesSum : ∀ (cs : Forest), valuesSum (aggForest cs) = aggSumF cs
  | .nil => rfl
  | .cons c cs => by
    simp [aggForest, valuesSum, aggSumF, aggregateCounts_value c, aggForest_valuesSum cs]
end

mutual
theorem aggOK_aggregateCounts : ∀ (n : Node), nodeWF n = true → aggOK n.aggregateCounts
  | .mk nm p v f cs => by
    intro hwf
    simp only [nodeWF, Bool.and_eq_true] at hwf
    cases f with
    | true =>
      have : cs = .nil := by
        rcases Bool.or_eq_true_iff.mp hwf.1 with h | h
        · exact (Forest.isEmpty_eq_true_iff cs).mp h
        · cases h
      subst this
      simp [Node.aggregateCounts, aggOK, forestAggOK]
    | false =>
      have hred : (Node.mk nm p v false cs).aggregateCounts
          = .mk nm p (valuesSum (aggForest cs)) false (aggForest cs) := by
        simp [Node.aggregateCounts]
      rw [hred]
      simp only [aggOK]
      refine ⟨?_, forestAggOK_aggForest cs hwf.2⟩
      simp

theorem forestAggOK_aggForest : ∀ (cs : Forest), forestWF cs = true → forestAggOK (aggForest cs)
  | .nil => by intro _; trivial
  | .cons c cs => by
    intro hwf
    simp only [forestWF, Bool.and_eq_true] at hwf
    exact ⟨aggOK_aggregateCounts c hwf.1, forestAggOK_aggForest cs hwf.2⟩
end

mutual
theorem aggSum_eq_fileLeafSum : ∀ (n : Node), nodeWF n = true → aggSum n = fileLeafSum n
  | .mk nm p v f cs => by
    intro hwf
    simp only [nodeWF, Bool.and_eq_true] at hwf
    cases f with
    | true =>
      have : cs = .nil := by
        rcases Bool.or_eq_true_iff.mp hwf.1 with h | h
        · exact (Forest.isEmpty_eq_true_iff cs).mp h
        · cases h
      subst this
      simp [aggSum, fileLeafSum, Forest.isEmpty]
    | false =>
      simp [aggSum, fileLeafSum, aggSumF_eq_fileLeafSumF cs hwf.2]

theorem aggSumF_eq_fileLeafSumF : ∀ (cs : Forest), forestWF cs = true → aggSumF cs = fileLeafSumF cs
  | .nil => by intro _; rfl
  | .cons c cs => by
    intro hwf
    simp only [forestWF, Bool.and_eq_true] at hwf
    simp [aggSumF, fileLeafSumF, aggSum_eq_fileLeafSum c hwf.1,
      aggSumF_eq_fileLeafSumF cs hwf.2]
end

/-- C5: after aggregation of a built tree, every directory node's value
equals the sum of its immediate children's aggregated values (`0` for a
directory with no children), and the root's aggregated value equals the sum
of all leaf (file) node values reachable from the root. -/
theorem c5_aggregation_conservation :
    ∀ (rootName : List Char) (entries : List (List Char × Nat)),
      aggOK (buildTree rootName entries).aggregateCounts ∧
      (buildTree rootName entries).aggregateCounts.value
        = fileLeafSum (buildTree rootName entries) := by
  intro rn entries
  have hwf := buildTree_wf rn entries
  exact ⟨aggOK_aggregateCounts _ hwf,
    by rw [aggregateCounts_value, aggSum_eq_fileLeafSum _ hwf]⟩

theorem acceptedPaths_aux_all_skipped :
    ∀ (lines : List (List Char)) (acc : List (List Char)),
      (∀ l ∈ lines, parseLine l = none) →
      lines.foldl
        (fun acc l =>
          match parseLine l with
          | some pw => if pw.1 ∈ acc then acc else acc ++ [pw.1]
          | none => acc) acc = acc := by
  intro lines
  induction lines with
  | nil => intro acc _; rfl
  | cons l ls ih =>
    intro acc h
    rw [List.foldl_cons]
    have hl : parseLine l = none := h l (by simp)
    simp only [hl]
    exact ih acc (fun x hx => h x (by simp [hx]))

/-- C8: completely empty input — no lines at all, or only blank lines — is
not an error: the pipeline yields a root node with value 0 and no
children. -/
theorem c8_empty_input_yields_empty_root :
    ∀ (rootName output : List Char),
      (∀ l ∈ splitLines output, l = []) →
      analyzeNumstat rootName output = Node.mk rootName ['/'] 0 false .nil := by
  intro rn out h
  have hnone : ∀ l ∈ splitLines out, parseLine l = none := by
    intro l hl; rw [h l hl]; rfl
  have hap : acceptedPaths (splitLines out) = [] := by
    unfold acceptedPaths
    exact acceptedPaths_aux_all_skipped _ [] hnone
  unfold analyzeNumstat entriesOfLines
  rw [hap]
  rfl

/-- C8 witness: the theorem applied to entirely empty git output and to
output consisting only of blank lines. -/
theorem c8_witness :
    analyzeNumstat "repo".toList [] = Node.mk "repo".toList ['/'] 0 false .nil ∧
    analyzeNumstat "repo".toList "\n\n".toList
      = Node.mk "repo".toList ['/'] 0 false .nil :=
  ⟨c8_empty_input_yields_empty_root "repo".toList [] (by decide),
   c8_empty_input_yields_empty_root "repo".toList "\n\n".toList (by decide)⟩

/-! ## Theorems: export (C6, C7) -/

theorem toJSONNodeWith_name_value (g : List JSONNode → List JSONNode) :
    ∀ (n : Node),
      (toJSONNodeWith g n).name = n.name ∧ (toJSONNodeWith g n).value = n.value
  | .mk nm p v f cs => by
    simp only [toJSONNodeWith]
    split <;> simp [JSONNode.name, JSONNode.value, Node.name, Node.value]

theorem exportChildren_eq (g : List JSONNode → List JSONNode) :
    ∀ (cs : Forest),
      exportChildren g cs
        = (cs.toList.filter (fun c => decide (0 < c.value))).map (toJSONNodeWith g)
  | .nil => rfl
  | .cons c cs => by
    simp only [exportChildren, Forest.toList, List.filter_cons]
    by_cases h : 0 < c.value
    · simp [h, exportChildren_eq g cs]
    · simp [h, exportChildren_eq g cs]

theorem perm_insertByValueDesc :
    ∀ (x : JSONNode) (l : List JSONNode),
      List.Perm (insertByValueDesc x l) (x :: l)
  | _, [] => List.Perm.refl _
  | x, y :: ys => by
    simp only [insertByValueDesc]
    split
    · exact List.Perm.refl _
    · exact ((perm_insertByValueDesc x ys).cons y).trans (List.Perm.swap x y ys)

theorem perm_sortByValueDesc :
    ∀ (l : List JSONNode), List.Perm (sortByValueDesc l) l
  | [] => List.Perm.refl _
  | x :: xs =>
    (perm_insertByValueDesc x (sortByValueDesc xs)).trans
      ((perm_sortByValueDesc xs).cons x)

theorem pairwise_insertByValueDesc :
    ∀ (x : JSONNode) (l : List JSONNode),
      List.Pairwise (fun a b => b.value ≤ a.value) l →
      List.Pairwise (fun a b => b.value ≤ a.value) (insertByValueDesc x l)
  | x, [] => fun _ => by simp [insertByValueDesc]
  | x, y :: ys => fun h => by
    rw [List.pairwise_cons] at h
    simp only [insertByValueDesc]
    split
    · rename_i hlt
      refine List.pairwise_cons.mpr ⟨?_, List.pairwise_cons.mpr ⟨h.1, h.2⟩⟩
      intro z hz
      rcases List.mem_cons.mp hz with rfl | hz
      · exact Nat.le_of_lt hlt
      · exact le_trans (h.1 z hz) (Nat.le_of_lt hlt)
    · rename_i hge
      refine List.pairwise_cons.mpr ⟨?_, pairwise_insertByValueDesc x ys h.2⟩
      intro z hz
      have hz2 := (perm_insertByValueDesc x ys).mem_iff.mp hz
      rcases List.mem_cons.mp hz2 with rfl | hz2
      · exact Nat.le_of_not_lt hge
      · exact h.1 z hz2

theorem pairwise_sortByValueDesc :
    ∀ (l : List JSONNode),
      List.Pairwise (fun a b => b.value ≤ a.value) (sortByValueDesc l)
  | [] => by simp [sortByValueDesc]
  | x :: xs => pairwise_insertByValueDesc x _ (pairwise_sortByValueDesc xs)

theorem sortedByValueDesc_of_pairwise :
    ∀ (l : List JSONNode),
      List.Pairwise (fun a b => b.value ≤ a.value) l → sortedByValueDesc l = true
  | [] => fun _ => rfl
  | [_] => fun _ => rfl
  | x :: y :: ys => fun h => by
    rw [List.pairwise_cons] at h
    simp only [sortedByValueDesc, Bool.and_eq_true, decide_eq_true_eq]
    exact ⟨h.1 y (by simp), sortedByValueDesc_of_pairwise (y :: ys) h.2⟩

theorem toJSONNodeWith_children_perm (g : List JSONNode → List JSONNode)
    (hg : permFun g) (n : Node) :
    List.Perm (toJSONNodeWith g n).children
      ((n.children.toList.filter (fun c => decide (0 < c.value))).map (toJSONNodeWith g)) := by
  cases n with
  | mk nm p v f cs =>
    simp only [toJSONNodeWith]
    split
    · rename_i hemp
      have : cs = .nil := (Forest.isEmpty_eq_true_iff cs).mp hemp
      subst this
      simp [JSONNode.children, Node.children, Forest.toList]
    · simp only [JSONNode.children, Node.children]
      refine (perm_sortByValueDesc _).trans ((hg _).trans ?_)
      rw [exportChildren_eq g cs]

/-- C6: for every aggregated tree node and every map-iteration order, the
export includes (exactly) the exports of the children whose value is
positive — a child appears iff its value is `> 0` — and the `children` field
is omitted from the serialized output exactly when no child qualifies. -/
theorem c6_export_filters_zero_children :
    ∀ (n : Node) (g : List JSONNode → List JSONNode), permFun g →
      List.Perm (toJSONNodeWith g n).children
        ((n.children.toList.filter (fun c => decide (0 < c.value))).map (toJSONNodeWith g)) ∧
      (omitsChildrenField (toJSONNodeWith g n) = true
        ↔ ∀ c ∈ n.children.toList, c.value = 0) := by
  intro n g hg
  refine ⟨toJSONNodeWith_children_perm g hg n, ?_⟩
  have hperm := toJSONNodeWith_children_perm g hg n
  unfold omitsChildrenField
  rw [List.isEmpty_iff]
  constructor
  · intro hnil c hc
    rw [hnil] at hperm
    have := hperm.symm.eq_nil
    rw [List.map_eq_nil_iff, List.filter_eq_nil_iff] at this
    have hc0 := this c hc
    simpa using hc0
  · intro hall
    have : (n.children.toList.filter (fun c => decide (0 < c.value))) = [] := by
      rw [List.filter_eq_nil_iff]
      intro c hc
      simp [hall c hc]
    rw [this] at hperm
    simpa using hperm.eq_nil

/-- C6 witness: the theorem applied to a concrete built tree and the
identity iteration order. -/
theorem c6_witness :
    List.Perm (toJSONNodeWith id (buildTree "r".toList [("a".toList, 1)])).children
      (((buildTree "r".toList [("a".toList, 1)]).children.toList.filter
        (fun c => decide (0 < c.value))).map (toJSONNodeWith id)) ∧
    (omitsChildrenField (toJSONNodeWith id (buildTree "r".toList [("a".toList, 1)])) = true
      ↔ ∀ c ∈ (buildTree "r".toList [("a".toList, 1)]).children.toList, c.value = 0) :=
  c6_export_filters_zero_children (buildTree "r".toList [("a".toList, 1)]) id
    (fun l => List.Perm.refl l)

/-- C7 counterexample: `exportDeterministic` — the claim as stated, that the
export of one aggregated tree is one fixed child order for every children-map
iteration order — is false: on `sampleTiedNode` (two children of equal
value 1) the identity order exports the children as `b, a` while the
reversed order exports them as `a, b`. -/
theorem c7_counterexample : ¬ exportDeterministic := by
  intro h
  have heq := h sampleTiedNode id (fun l => l.reverse)
    (fun l => List.Perm.refl l) (fun l => List.reverse_perm l)
  have hnames := congrArg (fun j => (JSONNode.children j).map JSONNode.name) heq
  exact absurd hnames (by decide)

/-- C7 (amended): in every exported node the children are sorted by value
descending, and the multiset of exported children — projected to
`(name, value)` — is fully determined by the aggregated tree; only the
relative order of equal-valued siblings can vary between runs (the Go map
iteration order is randomized and `sort.Slice` is an unstable sort), so the
export is order-deterministic exactly up to ties. -/
theorem c7_children_sorted_desc_and_multiset_determined :
    ∀ (n : Node) (g1 g2 : List JSONNode → List JSONNode),
      permFun g1 → permFun g2 →
      sortedByValueDesc (toJSONNodeWith g1 n).children = true ∧
      List.Perm ((toJSONNodeWith g1 n).children.map (fun j => (j.name, j.value)))
        ((toJSONNodeWith g2 n).children.map (fun j => (j.name, j.value))) := by
  intro n g1 g2 hg1 hg2
  constructor
  · cases n with
    | mk nm p v f cs =>
      simp only [toJSONNodeWith]
      split
      · simp [JSONNode.children, sortedByValueDesc]
      · simp only [JSONNode.children]
        exact sortedByValueDesc_of_pairwise _ (pairwise_sortByValueDesc _)
  · have h1 := (toJSONNodeWith_children_perm g1 hg1 n).map (fun j => (j.name, j.value))
    have h2 := (toJSONNodeWith_children_perm g2 hg2 n).map (fun j => (j.name, j.value))
    have hmid :
        ((n.children.toList.filter (fun c => decide (0 < c.value))).map
            (toJSONNodeWith g1)).map (fun j => (j.name, j.value))
          = ((n.children.toList.filter (fun c => decide (0 < c.value))).map
            (toJSONNodeWith g2)).map (fun j => (j.name, j.value)) := by
      rw [List.map_map, List.map_map]
      apply List.map_congr_left
      intro c _
      simp only [Function.comp_apply]
      rw [(toJSONNodeWith_name_value g1 c).1, (toJSONNodeWith_name_value g1 c).2,
        (toJSONNodeWith_name_value g2 c).1, (toJSONNodeWith_name_value g2 c).2]
    rw [hmid] at h1
    exact h1.trans h2.symm

/-- C7 witness: the amended theorem applied to `sampleTiedNode` with the
identity and the reversing iteration orders. -/
theorem c7_witness :
    sortedByValueDesc (toJSONNodeWith id sampleTiedNode).children = true ∧
    List.Perm ((toJSONNodeWith id sampleTiedNode).children.map (fun j => (j.name, j.value)))
      ((toJSONNodeWith (fun l => l.reverse) sampleTiedNode).children.map
        (fun j => (j.name, j.value))) :=
  c7_children_sorted_desc_and_multiset_determined sampleTiedNode id (fun l => l.reverse)
    (fun l => List.Perm.refl l) (fun l => List.reverse_perm l)

/-! ## Theorems: the conservation loss for prefix paths (C10) -/

theorem findChild_name : ∀ (cs : Forest) (k : List Char) (c : Node),
    findChild cs k = some c → c.name = k
  | .nil, _, _ => by intro h; simp [findChild] at h
  | .cons d ds, k, c => by
    intro h
    simp only [findChild] at h
    split at h
    · cases h; assumption
    · exact findChild_name ds k c h

theorem findChild_replaceChild_self : ∀ (cs : Forest) (k : List Char) (c c2 : Node),
    findChild cs k = some c → c2.name = k →
    findChild (replaceChild cs k c2) k = some c2
  | .nil, _, _, _ => by intro h _; simp [findChild] at h
  | .cons d ds, k, c, c2 => by
    intro h hname
    simp only [findChild] at h
    simp only [replaceChild]
    by_cases hd : d.name = k
    · simp [hd, findChild, hname]
    · simp only [if_neg hd, findChild, if_neg hd]
      simp only [if_neg hd] at h
      exact findChild_replaceChild_self ds k c c2 h hname

theorem findChild_replaceChild_other : ∀ (cs : Forest) (k : List Char) (c2 : Node)
    (s : List Char), c2.name = k → s ≠ k →
    findChild (replaceChild cs k c2) s = findChild cs s
  | .nil, _, _, _ => by intro _ _; rfl
  | .cons d ds, k, c2, s => by
    intro hname hs
    simp only [replaceChild]
    by_cases hd : d.name = k
    · have : ¬(c2.name = s) := by rw [hname]; exact fun hh => hs hh.symm
      have : findChild (Forest.cons c2 ds) s = findChild ds s := by
        simp [findChild, this]
      rw [if_pos hd, this, findChild, if_neg (by rw [hd]; exact fun hh => hs hh.symm)]
    · simp only [if_neg hd, findChild]
      by_cases hds : d.name = s
      · simp [hds]
      · simp only [if_neg hds]
        exact findChild_replaceChild_other ds k c2 s hname hs

theorem findChild_push_of_none : ∀ (cs : Forest) (c2 : Node) (s : List Char),
    findChild cs s = none →
    findChild (cs.push c2) s = if c2.name = s then some c2 else none
  | .nil, c2, s => by intro _; simp [Forest.push, findChild]
  | .cons d ds, c2, s => by
    intro h
    simp only [findChild] at h
    split at h
    · cases h
    · simp only [Forest.push, findChild]
      rw [if_neg (by assumption)]
      exact findChild_push_of_none ds c2 s h

theorem findChild_push_of_some : ∀ (cs : Forest) (c2 : Node) (s : List Char) (d : Node),
    findChild cs s = some d → findChild (cs.push c2) s = some d
  | .nil, _, _, _ => by intro h; simp [findChild] at h
  | .cons e ds, c2, s, d => by
    intro h
    simp only [findChild] at h
    simp only [Forest.push, findChild]
    split at h
    · cases h; rw [if_pos (by assumption)]
    · rw [if_neg (by assumption)]
      exact findChild_push_of_some ds c2 s d h

theorem replaceChild_isEmpty : ∀ (cs : Forest) (k : List Char) (c2 : Node),
    (replaceChild cs k c2).isEmpty = cs.isEmpty
  | .nil, _, _ => rfl
  | .cons d ds, k, c2 => by
    simp only [replaceChild]
    split <;> rfl

theorem push_isEmpty : ∀ (cs : Forest) (c : Node), (cs.push c).isEmpty = false
  | .nil, _ => rfl
  | .cons _ _, _ => rfl

theorem aggSumF_replaceChild : ∀ (cs : Forest) (k : List Char) (c c2 : Node),
    findChild cs k = some c →
    aggSumF (replaceChild cs k c2) + aggSum c = aggSumF cs + aggSum c2
  | .nil, _, _, _ => by intro h; simp [findChild] at h
  | .cons d ds, k, c, c2 => by
    intro h
    simp only [findChild] at h
    simp only [replaceChild]
    by_cases hd : d.name = k
    · rw [if_pos hd] at h ⊢
      cases h
      simp only [aggSumF]
      omega
    · rw [if_neg hd] at h ⊢
      simp only [aggSumF]
      have := aggSumF_replaceChild ds k c c2 h
      omega

theorem aggSumF_push : ∀ (cs : Forest) (c : Node),
    aggSumF (cs.push c) = aggSumF cs + aggSum c
  | .nil, c => by simp [Forest.push, aggSumF]
  | .cons d ds, c => by
    simp only [Forest.push, aggSumF]
    have := aggSumF_push ds c
    omega

theorem aggSum_NewNode (nm p : List Char) (f : Bool) : aggSum (NewNode nm p f) = 0 := by
  cases f <;> rfl

theorem insertPath_name : ∀ (parts : List (List Char)) (n : Node) (w : Nat),
    (insertPath n parts w).name = n.name
  | [], .mk nm p v f cs, w => rfl
  | part :: rest, n, w => by
    simp only [insertPath]
    split
    · exact insertPath_name rest n w
    · cases hfc : findChild n.children part <;> simp [Node.name]

theorem fileValueAt_cons (nm p : List Char) (v : Nat) (f : Bool) (cs : Forest)
    (s : List Char) (P : List (List Char)) :
    fileValueAt (.mk nm p v f cs) (s :: P)
      = match findChild cs s with
        | some c => fileValueAt c P
        | none => 0 := by
  cases h : findChild cs s <;>
    simp [fileValueAt, nodeAt, Node.children, h]

theorem fileValueAt_nil (nm p : List Char) (v : Nat) (f : Bool) (cs : Forest) :
    fileValueAt (.mk nm p v f cs) [] = if f then v else 0 := by
  simp [fileValueAt, nodeAt, Node.isFile, Node.value]

theorem hasChildAt_cons (nm p : List Char) (v : Nat) (f : Bool) (cs : Forest)
    (s : List Char) (P : List (List Char)) :
    hasChildAt (.mk nm p v f cs) (s :: P)
      = match findChild cs s with
        | some c => hasChildAt c P
        | none => false := by
  cases h : findChild cs s <;>
    simp [hasChildAt, nodeAt, Node.children, h]

theorem hasChildAt_nil (nm p : List Char) (v : Nat) (f : Bool) (cs : Forest) :
    hasChildAt (.mk nm p v f cs) [] = !cs.isEmpty := by
  simp [hasChildAt, nodeAt, Node.children]

theorem cleanParts_nil : cleanParts [] = [] := rfl

theorem cleanParts_cons_empty (rest : List (List Char)) :
    cleanParts ([] :: rest) = cleanParts rest := by
  simp [cleanParts]

theorem cleanParts_cons (part : List Char) (rest : List (List Char))
    (h : ¬part.isEmpty = true) :
    cleanParts (part :: rest) = part :: cleanParts rest := by
  simp [cleanParts, List.filter_cons, h]

theorem aggSum_mk (nm p : List Char) (v : Nat) (f : Bool) (cs : Forest) :
    aggSum (.mk nm p v f cs) = if f then v else aggSumF cs := rfl

theorem aggSum_mk_true (nm p : List Char) (v : Nat) (cs : Forest) :
    aggSum (.mk nm p v true cs) = v := rfl

theorem aggSum_mk_false (nm p : List Char) (v : Nat) (cs : Forest) :
    aggSum (.mk nm p v false cs) = aggSumF cs := rfl

theorem nodeWF_children_nil_of_file {nm p : List Char} {v : Nat} {cs : Forest}
    (hwf : nodeWF (.mk nm p v true cs) = true) : cs = .nil := by
  simp only [nodeWF, Bool.and_eq_true] at hwf
  rcases Bool.or_eq_true_iff.mp hwf.1 with h | h
  · exact (Forest.isEmpty_eq_true_iff cs).mp h
  · cases h

theorem nodeWF_not_file_of_found {nm p : List Char} {v : Nat} {f : Bool} {cs : Forest}
    {part : List Char} {c : Node}
    (hwf : nodeWF (.mk nm p v f cs) = true)
    (hfc : findChild cs part = some c) : f = false := by
  simp only [nodeWF, Bool.and_eq_true] at hwf
  rcases Bool.or_eq_true_iff.mp hwf.1 with h | h
  · rw [findChild_forest_ne_nil hfc] at h; cases h
  · simpa using h

theorem nodeWF_forestWF {nm p : List Char} {v : Nat} {f : Bool} {cs : Forest}
    (hwf : nodeWF (.mk nm p v f cs) = true) : forestWF cs = true := by
  simp only [nodeWF, Bool.and_eq_true] at hwf
  exact hwf.2

theorem aggSum_insertPath_le :
    ∀ (parts : List (List Char)) (n : Node) (w : Nat),
      nodeWF n = true →
      aggSum (insertPath n parts w) ≤ aggSum n + w
  | [], .mk nm p v f cs, w => by
    intro hwf
    simp only [insertPath]
    cases f
    · simp only [aggSum_mk_false]; omega
    · simp only [aggSum_mk_true]; omega
  | part :: rest, n, w => by
    intro hwf
    simp only [insertPath]
    split
    · exact aggSum_insertPath_le rest n w hwf
    · cases n with
    | mk nm p v f cs =>
      cases hfc : findChild (Node.mk nm p v f cs).children part with
      | some c =>
        have hf : f = false := nodeWF_not_file_of_found hwf hfc
        subst hf
        have hwfc : nodeWF c = true :=
          forestWF_findChild cs part c (nodeWF_forestWF hwf) hfc
        have hrs := aggSumF_replaceChild cs part c (insertPath c rest w) hfc
        have hle := aggSum_insertPath_le rest c w hwfc
        simp only [Node.name, Node.path, Node.value, Node.isFile, Node.children,
          aggSum_mk_false]
        omega
      | none =>
        have h0 : aggSum (NewNode part (pathJoin (Node.mk nm p v f cs).path part) rest.isEmpty) = 0 :=
          aggSum_NewNode _ _ _
        have hle := aggSum_insertPath_le rest
          (NewNode part (pathJoin (Node.mk nm p v f cs).path part) rest.isEmpty) w
          (nodeWF_NewNode _ _ _)
        rw [h0] at hle
        have hpush := aggSumF_push cs
          (insertPath (NewNode part (pathJoin (Node.mk nm p v f cs).path part) rest.isEmpty) rest w)
        cases f with
        | true =>
          have hnil : cs = .nil := nodeWF_children_nil_of_file hwf
          subst hnil
          simp only [Node.name, Node.path, Node.value, Node.isFile, Node.children,
            aggSum_mk_true, aggSum_mk_false] at *
          simp only [aggSumF] at *
          omega
        | false =>
          simp only [Node.name, Node.path, Node.value, Node.isFile, Node.children,
            aggSum_mk_false] at *
          omega

theorem NewNode_name (nm p : List Char) (f : Bool) : (NewNode nm p f).name = nm := rfl

theorem key_insertPath :
    ∀ (parts : List (List Char)) (n : Node) (w : Nat) (P : List (List Char)),
      nodeWF n = true →
      aggSum (insertPath n parts w) + fileValueAt n P
        ≤ aggSum n + fileValueAt (insertPath n parts w) P
          + (if cleanParts parts = P then 0 else w)
  | [], .mk nm p v f cs, w, P => by
    intro hwf
    simp only [insertPath]
    cases P with
    | nil =>
      rw [fileValueAt_nil, fileValueAt_nil, cleanParts_nil, if_pos rfl]
      cases f <;> (simp [aggSum_mk_true, aggSum_mk_false]; try omega)
    | cons s P2 =>
      have hcne : ([] : List (List Char)) ≠ s :: P2 := by simp
      rw [fileValueAt_cons, fileValueAt_cons, cleanParts_nil, if_neg hcne]
      cases f <;> simp only [aggSum_mk_true, aggSum_mk_false] <;>
        cases hcs : findChild cs s <;> omega
  | part :: rest, n, w, P => by
    intro hwf
    simp only [insertPath]
    split
    · rename_i hpe
      have hp0 : part = [] := by simpa using hpe
      subst hp0
      rw [cleanParts_cons_empty]
      exact key_insertPath rest n w P hwf
    · rename_i hne
      cases n with
    | mk nm p v f cs =>
      have hclean : cleanParts (part :: rest) = part :: cleanParts rest :=
        cleanParts_cons part rest hne
      cases hfc : findChild (Node.mk nm p v f cs).children part with
      | some c =>
        have hfc' : findChild cs part = some c := hfc
        have hf : f = false := nodeWF_not_file_of_found hwf hfc'
        subst hf
        have hwfc : nodeWF c = true :=
          forestWF_findChild cs part c (nodeWF_forestWF hwf) hfc'
        have hc2name : (insertPath c rest w).name = part := by
          rw [insertPath_name]; exact findChild_name cs part c hfc'
        have hrs := aggSumF_replaceChild cs part c (insertPath c rest w) hfc'
        have hle := aggSum_insertPath_le rest c w hwfc
        simp only [Node.name, Node.path, Node.value, Node.isFile, Node.children]
        cases P with
        | nil =>
          have hcne : part :: cleanParts rest ≠ ([] : List (List Char)) := by simp
          rw [hclean, if_neg hcne, fileValueAt_nil, fileValueAt_nil]
          simp only [aggSum_mk_false, if_neg Bool.false_ne_true]
          omega
        | cons s P2 =>
          by_cases hsp : s = part
          · rw [hsp]
            have hfc2 : findChild (replaceChild cs part (insertPath c rest w)) part
                = some (insertPath c rest w) :=
              findChild_replaceChild_self cs part c (insertPath c rest w) hfc' hc2name
            simp only [fileValueAt_cons, hfc', hfc2]
            rw [hclean]
            simp only [List.cons.injEq, eq_self_iff_true, true_and]
            have hkey := key_insertPath rest c w P2 hwfc
            simp only [aggSum_mk_false]
            omega
          · have hcne : part :: cleanParts rest ≠ s :: P2 := by
              intro hcontra
              injection hcontra with h1 _
              exact hsp h1.symm
            have hfc2 : findChild (replaceChild cs part (insertPath c rest w)) s
                = findChild cs s :=
              findChild_replaceChild_other cs part (insertPath c rest w) s hc2name hsp
            simp only [fileValueAt_cons, hfc2]
            rw [hclean, if_neg hcne]
            simp only [aggSum_mk_false]
            cases hcs : findChild cs s <;> omega
      | none =>
        have hfc' : findChild cs part = none := hfc
        have hc0wf : nodeWF (NewNode part (pathJoin p part) rest.isEmpty) = true :=
          nodeWF_NewNode _ _ _
        have hc2name :
            (insertPath (NewNode part (pathJoin p part) rest.isEmpty) rest w).name = part := by
          rw [insertPath_name]; rfl
        have hle : aggSum (insertPath (NewNode part (pathJoin p part) rest.isEmpty) rest w) ≤ w := by
          have hb := aggSum_insertPath_le rest (NewNode part (pathJoin p part) rest.isEmpty) w hc0wf
          rw [aggSum_NewNode] at hb
          omega
        have hpush := aggSumF_push cs
          (insertPath (NewNode part (pathJoin p part) rest.isEmpty) rest w)
        simp only [Node.name, Node.path, Node.value, Node.isFile, Node.children]
        cases P with
        | nil =>
          have hcne : part :: cleanParts rest ≠ ([] : List (List Char)) := by simp
          rw [hclean, if_neg hcne, fileValueAt_nil, fileValueAt_nil]
          cases f with
          | true =>
            have hnil : cs = .nil := nodeWF_children_nil_of_file hwf
            subst hnil
            have h0 : aggSumF Forest.nil = 0 := rfl
            simp only [aggSum_mk_false, aggSum_mk_true]
            simp only [eq_self_iff_true, if_true, Bool.false_eq_true, if_false]
            omega
          | false =>
            simp only [aggSum_mk_false, if_neg Bool.false_ne_true]
            omega
        | cons s P2 =>
          by_cases hsp : s = part
          · rw [hsp]
            have hfc2 :
                findChild (cs.push (insertPath (NewNode part (pathJoin p part) rest.isEmpty) rest w)) part
                = some (insertPath (NewNode part (pathJoin p part) rest.isEmpty) rest w) := by
              rw [findChild_push_of_none cs _ part hfc', if_pos hc2name]
            simp only [fileValueAt_cons, hfc', hfc2]
            rw [hclean]
            simp only [List.cons.injEq, eq_self_iff_true, true_and]
            have hkey := key_insertPath rest (NewNode part (pathJoin p part) rest.isEmpty) w P2 hc0wf
            rw [aggSum_NewNode] at hkey
            cases f with
            | true =>
              have hnil : cs = .nil := nodeWF_children_nil_of_file hwf
              subst hnil
              have h0 : aggSumF Forest.nil = 0 := rfl
              simp only [aggSum_mk_false, aggSum_mk_true]
              omega
            | false =>
              simp only [aggSum_mk_false]
              omega
          · have hcne : part :: cleanParts rest ≠ s :: P2 := by
              intro hcontra
              injection hcontra with h1 _
              exact hsp h1.symm
            rw [hclean, if_neg hcne]
            cases hcs : findChild cs s with
            | some d =>
              have hfc2 :
                  findChild (cs.push (insertPath (NewNode part (pathJoin p part) rest.isEmpty) rest w)) s
                    = some d :=
                findChild_push_of_some cs _ s d hcs
              simp only [fileValueAt_cons, hcs, hfc2]
              cases f with
              | true =>
                have hnil : cs = .nil := nodeWF_children_nil_of_file hwf
                subst hnil
                simp [findChild] at hcs
              | false =>
                simp only [aggSum_mk_false]
                omega
            | none =>
              have hfc2 :
                  findChild (cs.push (insertPath (NewNode part (pathJoin p part) rest.isEmpty) rest w)) s
                    = none := by
                rw [findChild_push_of_none cs _ s hcs,
                  if_neg (by rw [hc2name]; exact fun hh => hsp hh.symm)]
              simp only [fileValueAt_cons, hcs, hfc2]
              cases f with
              | true =>
                have hnil : cs = .nil := nodeWF_children_nil_of_file hwf
                subst hnil
                have h0 : aggSumF Forest.nil = 0 := rfl
                simp only [aggSum_mk_false, aggSum_mk_true]
                omega
              | false =>
                simp only [aggSum_mk_false]
                omega

theorem hasChildAt_setValue (nm p : List Char) (v w : Nat) (f : Bool) (cs : Forest)
    (P : List (List Char)) :
    hasChildAt (.mk nm p w f cs) P = hasChildAt (.mk nm p v f cs) P := by
  cases P with
  | nil => rw [hasChildAt_nil, hasChildAt_nil]
  | cons s P2 => rw [hasChildAt_cons, hasChildAt_cons]

theorem hasChildAt_insertPath_mono :
    ∀ (parts : List (List Char)) (n : Node) (w : Nat) (P : List (List Char)),
      hasChildAt n P = true → hasChildAt (insertPath n parts w) P = true
  | [], .mk nm p v f cs, w, P => by
    intro h
    simp only [insertPath]
    rw [hasChildAt_setValue nm p v w f cs P]
    exact h
  | part :: rest, n, w, P => by
    intro h
    simp only [insertPath]
    split
    · exact hasChildAt_insertPath_mono rest n w P h
    · cases n with
    | mk nm p v f cs =>
      cases hfc : findChild (Node.mk nm p v f cs).children part with
      | some c =>
        have hfc' : findChild cs part = some c := hfc
        have hc2name : (insertPath c rest w).name = part := by
          rw [insertPath_name]; exact findChild_name cs part c hfc'
        simp only [Node.name, Node.path, Node.value, Node.isFile, Node.children]
        cases P with
        | nil =>
          rw [hasChildAt_nil] at h
          rw [hasChildAt_nil, replaceChild_isEmpty]
          exact h
        | cons s P2 =>
          rw [hasChildAt_cons] at h
          rw [hasChildAt_cons]
          by_cases hsp : s = part
          · subst hsp
            rw [hfc'] at h
            rw [findChild_replaceChild_self cs s c (insertPath c rest w) hfc' hc2name]
            exact hasChildAt_insertPath_mono rest c w P2 h
          · rw [findChild_replaceChild_other cs part (insertPath c rest w) s hc2name hsp]
            exact h
      | none =>
        have hfc' : findChild cs part = none := hfc
        have hc2name :
            (insertPath (NewNode part (pathJoin p part) rest.isEmpty) rest w).name = part := by
          rw [insertPath_name]; rfl
        simp only [Node.name, Node.path, Node.value, Node.isFile, Node.children]
        cases P with
        | nil =>
          rw [hasChildAt_nil, push_isEmpty]
          rfl
        | cons s P2 =>
          rw [hasChildAt_cons] at h
          rw [hasChildAt_cons]
          cases hcs : findChild cs s with
          | some d =>
            rw [hcs] at h
            rw [findChild_push_of_some cs _ s d hcs]
            exact h
          | none =>
            rw [hcs] at h
            cases h

theorem hasChildAt_insertPath_creates :
    ∀ (parts : List (List Char)) (n : Node) (w : Nat) (P : List (List Char))
      (s : List Char) (R : List (List Char)),
      cleanParts parts = P ++ s :: R →
      hasChildAt (insertPath n parts w) P = true
  | [], n, w, P, s, R => by
    intro h
    rw [cleanParts_nil] at h
    exact absurd h.symm (List.append_ne_nil_of_right_ne_nil P (by simp))
  | part :: rest, n, w, P, s, R => by
    intro h
    simp only [insertPath]
    split
    · rename_i hpe
      have hp0 : part = [] := by simpa using hpe
      subst hp0
      rw [cleanParts_cons_empty] at h
      exact hasChildAt_insertPath_creates rest n w P s R h
    · rename_i hne
      rw [cleanParts_cons part rest hne] at h
      cases n with
    | mk nm p v f cs =>
      cases hfc : findChild (Node.mk nm p v f cs).children part with
      | some c =>
        have hfc' : findChild cs part = some c := hfc
        have hc2name : (insertPath c rest w).name = part := by
          rw [insertPath_name]; exact findChild_name cs part c hfc'
        simp only [Node.name, Node.path, Node.value, Node.isFile, Node.children]
        cases P with
        | nil =>
          rw [hasChildAt_nil, replaceChild_isEmpty]
          rw [findChild_forest_ne_nil hfc']
          rfl
        | cons p0 P2 =>
          injection h with h1 h2
          subst h1
          rw [hasChildAt_cons,
            findChild_replaceChild_self cs part c (insertPath c rest w) hfc' hc2name]
          exact hasChildAt_insertPath_creates rest c w P2 s R h2
      | none =>
        have hfc' : findChild cs part = none := hfc
        have hc2name :
            (insertPath (NewNode part (pathJoin p part) rest.isEmpty) rest w).name = part := by
          rw [insertPath_name]; rfl
        simp only [Node.name, Node.path, Node.value, Node.isFile, Node.children]
        cases P with
        | nil =>
          rw [hasChildAt_nil, push_isEmpty]
          rfl
        | cons p0 P2 =>
          injection h with h1 h2
          subst h1
          rw [hasChildAt_cons]
          rw [findChild_push_of_none cs _ part hfc', if_pos hc2name]
          exact hasChildAt_insertPath_creates rest
            (NewNode part (pathJoin p part) rest.isEmpty) w P2 s R h2

theorem hasChildAt_fold_mono :
    ∀ (E : List (List Char × Nat)) (t : Node) (P : List (List Char)),
      hasChildAt t P = true → hasChildAt (E.foldl buildStep t) P = true := by
  intro E
  induction E with
  | nil => intro t P h; simpa using h
  | cons e es ih =>
    intro t P h
    rw [List.foldl_cons]
    refine ih _ P ?_
    unfold buildStep
    split
    · exact h
    · exact hasChildAt_insertPath_mono _ t e.2 P h

theorem hasChildAt_fold_creates :
    ∀ (E : List (List Char × Nat)) (t : Node) (P : List (List Char))
      (q : List Char × Nat) (s : List Char) (R : List (List Char)),
      q ∈ E → q.2 ≠ 0 → cleanParts (entryParts q.1) = P ++ s :: R →
      hasChildAt (E.foldl buildStep t) P = true := by
  intro E
  induction E with
  | nil => intro t P q s R hq; cases hq
  | cons e es ih =>
    intro t P q s R hq hq2 hclean
    rw [List.foldl_cons]
    rcases List.mem_cons.mp hq with rfl | hq
    · refine hasChildAt_fold_mono es _ P ?_
      unfold buildStep
      rw [if_neg hq2]
      exact hasChildAt_insertPath_creates _ t q.2 P s R hclean
    · exact ih _ P q s R hq hq2 hclean

theorem nodeWF_nodeAt :
    ∀ (P : List (List Char)) (t : Node) (n : Node),
      nodeWF t = true → nodeAt t P = some n → nodeWF n = true
  | [], t, n => by
    intro hwf h
    simp only [nodeAt] at h
    cases h
    exact hwf
  | s :: P2, .mk nm p v f cs, n => by
    intro hwf h
    simp only [nodeAt, Node.children] at h
    cases hfc : findChild cs s with
    | some c =>
      rw [hfc] at h
      exact nodeWF_nodeAt P2 c n
        (forestWF_findChild cs s c (nodeWF_forestWF hwf) hfc) h
    | none => rw [hfc] at h; cases h

theorem fileValueAt_eq_zero_of_hasChild :
    ∀ (P : List (List Char)) (t : Node),
      nodeWF t = true → hasChildAt t P = true → fileValueAt t P = 0
  | [], .mk nm p v f cs => by
    intro hwf hc
    rw [hasChildAt_nil] at hc
    rw [fileValueAt_nil]
    have hf : f = false := by
      simp only [nodeWF, Bool.and_eq_true] at hwf
      rcases Bool.or_eq_true_iff.mp hwf.1 with h | h
      · rw [h] at hc; cases hc
      · simpa using h
    rw [hf]
    rfl
  | s :: P2, .mk nm p v f cs => by
    intro hwf hc
    rw [hasChildAt_cons] at hc
    rw [fileValueAt_cons]
    cases hfc : findChild cs s with
    | some c =>
      rw [hfc] at hc
      exact fileValueAt_eq_zero_of_hasChild P2 c
        (forestWF_findChild cs s c (nodeWF_forestWF hwf) hfc) hc
    | none => rfl

theorem key_fold :
    ∀ (E : List (List Char × Nat)) (t : Node) (P : List (List Char)),
      nodeWF t = true →
      aggSum (E.foldl buildStep t) + fileValueAt t P
        ≤ aggSum t + fileValueAt (E.foldl buildStep t) P + condSum P E := by
  intro E
  induction E with
  | nil => intro t P hwf; simp [condSum]
  | cons e es ih =>
    intro t P hwf
    rw [List.foldl_cons]
    simp only [condSum]
    by_cases h0 : e.2 = 0
    · have hb : buildStep t e = t := by simp [buildStep, h0]
      rw [hb, if_pos h0]
      have := ih t P hwf
      omega
    · have hb : buildStep t e = insertPath t (entryParts e.1) e.2 := by
        simp [buildStep, h0]
      rw [hb, if_neg h0]
      have hk := key_insertPath (entryParts e.1) t e.2 P hwf
      have hi := ih (insertPath t (entryParts e.1) e.2) P (insertPath_wf _ t e.2 hwf)
      omega

theorem condSum_le_weightsSum :
    ∀ (P : List (List Char)) (E : List (List Char × Nat)),
      condSum P E ≤ weightsSum E
  | _, [] => Nat.le_refl 0
  | P, e :: es => by
    simp only [condSum, weightsSum]
    have hrec := condSum_le_weightsSum P es
    have hterm :
        (if e.2 = 0 then 0 else if cleanParts (entryParts e.1) = P then 0 else e.2)
          ≤ e.2 := by
      split
      · omega
      · split <;> omega
    omega

theorem condSum_with_member :
    ∀ (E : List (List Char × Nat)) (p : List Char × Nat) (P : List (List Char)),
      p ∈ E → cleanParts (entryParts p.1) = P →
      condSum P E + p.2 ≤ weightsSum E
  | [], p, P => by intro h _; cases h
  | e :: es, p, P => by
    intro hmem hcp
    simp only [condSum, weightsSum]
    rcases List.mem_cons.mp hmem with rfl | hmem
    · have hb := condSum_le_weightsSum P es
      have hterm :
          (if p.2 = 0 then (0 : Nat)
           else if cleanParts (entryParts p.1) = P then 0 else p.2) = 0 := by
        simp [hcp]
      omega
    · have hterm :
          (if e.2 = 0 then (0 : Nat)
           else if cleanParts (entryParts e.1) = P then 0 else e.2) ≤ e.2 := by
        split
        · omega
        · split <;> omega
      have hrec := condSum_with_member es p P hmem hcp
      omega

theorem splitOnCharAux_sep_append :
    ∀ (sep : Char) (a b acc : List Char),
      splitOnCharAux sep (a ++ sep :: b) acc
        = splitOnCharAux sep a acc ++ splitOnCharAux sep b []
  | sep, [], b, acc => by simp [splitOnCharAux]
  | sep, x :: a, b, acc => by
    by_cases hx : x = sep
    · simp [splitOnCharAux, hx, splitOnCharAux_sep_append sep a b]
    · simp [splitOnCharAux, hx, splitOnCharAux_sep_append sep a b (x :: acc)]

theorem splitOnChar_sep_append (sep : Char) (a b : List Char) :
    splitOnChar sep (a ++ sep :: b) = splitOnChar sep a ++ splitOnChar sep b :=
  splitOnCharAux_sep_append sep a b []

theorem entryParts_append (a b : List Char) :
    entryParts (a ++ '/' :: b) = entryParts a ++ entryParts b := by
  unfold entryParts
  rw [splitOnChar_sep_append, List.map_append]

theorem cleanParts_append (x y : List (List Char)) :
    cleanParts (x ++ y) = cleanParts x ++ cleanParts y := by
  simp [cleanParts]

/-- C10: when a WeightMap path `p` is a proper (path-component) prefix of
another WeightMap path `q`, the weight recorded for `p` is silently
discarded: in the built tree the node at `p` has a child and is a directory,
aggregation overwrites its value with the sum of its children only, and the
root's aggregated value is strictly less than the sum of all WeightMap
weights. -/
theorem c10_prefix_path_weight_discarded :
    ∀ (rootName : List Char) (entries : List (List Char × Nat))
      (p q : List Char × Nat),
      p ∈ entries → q ∈ entries → (∀ e ∈ entries, 1 ≤ e.2) →
      (entries.map Prod.fst).Nodup →
      pathProperlyExtends q.1 p.1 →
      (∃ n, nodeAt (buildTree rootName entries) (cleanParts (entryParts p.1)) = some n
        ∧ n.children ≠ .nil ∧ n.isFile = false) ∧
      (buildTree rootName entries).aggregateCounts.value < weightsSum entries := by
  intro rn entries p q hp hq hw hnodup hext
  obtain ⟨r, hqr, hrne⟩ := hext
  have hqclean :
      cleanParts (entryParts q.1)
        = cleanParts (entryParts p.1) ++ cleanParts (entryParts r) := by
    rw [hqr, entryParts_append, cleanParts_append]
  obtain ⟨s, R, hsR⟩ :
      ∃ s R, cleanParts (entryParts r) = s :: R := by
    cases hcr : cleanParts (entryParts r) with
    | nil => exact absurd hcr hrne
    | cons s R => exact ⟨s, R, rfl⟩
  have hq2 : q.2 ≠ 0 := by have := hw q hq; omega
  have hchild :
      hasChildAt (buildTree rn entries) (cleanParts (entryParts p.1)) = true := by
    unfold buildTree
    exact hasChildAt_fold_creates entries (rootNode rn) _ q s R hq hq2
      (by rw [hqclean, hsR])
  have hwf : nodeWF (buildTree rn entries) = true := buildTree_wf rn entries
  constructor
  · unfold hasChildAt at hchild
    cases hna : nodeAt (buildTree rn entries) (cleanParts (entryParts p.1)) with
    | none => rw [hna] at hchild; cases hchild
    | some n =>
      rw [hna] at hchild
      have hchild2 : (!n.children.isEmpty) = true := hchild
      refine ⟨n, rfl, ?_, ?_⟩
      · intro hnil
        rw [hnil] at hchild2
        simp [Forest.isEmpty] at hchild2
      · have hwn : nodeWF n = true := nodeWF_nodeAt _ _ n hwf hna
        cases n with
        | mk nm2 p2 v2 f2 cs2 =>
          simp only [nodeWF, Bool.and_eq_true] at hwn
          simp only [Node.children] at hchild2
          rcases Bool.or_eq_true_iff.mp hwn.1 with h | h
          · rw [h] at hchild2; simp at hchild2
          · simpa [Node.isFile] using h
  · rw [aggregateCounts_value]
    have hkf := key_fold entries (rootNode rn) (cleanParts (entryParts p.1))
      (nodeWF_NewNode _ _ _)
    have hroot0 : aggSum (rootNode rn) = 0 := aggSum_NewNode _ _ _
    have hfv0 :
        fileValueAt (entries.foldl buildStep (rootNode rn))
          (cleanParts (entryParts p.1)) = 0 := by
      refine fileValueAt_eq_zero_of_hasChild _ _ ?_ ?_
      · exact buildTree_wf rn entries
      · exact hchild
    have hcs := condSum_with_member entries p (cleanParts (entryParts p.1)) hp rfl
    have hp2 : 1 ≤ p.2 := hw p hp
    unfold buildTree
    omega

/-- C10 witness: the WeightMap `a ↦ 1, a/b ↦ 1` — the node at `a` ends up a
directory and the aggregated root value (1) is strictly below the total
weight (2). -/
theorem c10_witness :
    (∃ n, nodeAt (buildTree "r".toList [("a".toList, 1), ("a/b".toList, 1)])
        (cleanParts (entryParts "a".toList)) = some n
      ∧ n.children ≠ .nil ∧ n.isFile = false) ∧
    (buildTree "r".toList [("a".toList, 1), ("a/b".toList, 1)]).aggregateCounts.value
      < weightsSum [("a".toList, 1), ("a/b".toList, 1)] :=
  c10_prefix_path_weight_discarded "r".toList [("a".toList, 1), ("a/b".toList, 1)]
    ("a".toList, 1) ("a/b".toList, 1) (by decide) (by decide) (by decide) (by decide)
    ⟨"b".toList, by decide, by decide⟩
